import Mathlib

/-!
Verification of the pptrace core against its natural-language specification.

The definitions below are a shallow embedding of the Go sources:
 - `trace/trace.go` (`traceTarget.Compile`, `safeName`),
 - `internal/dwarfutil` (`Tree`, `FindDwarf`, `readBuildID`),
 - `inspect/inspect.go` (`findType`, the name matching of `funcArgsAction`).

Go `uint64` arithmetic is modelled as `Nat` with explicit reduction mod `2^64`
where overflow can occur; fallible Go paths (returned errors, `log.Fatal`,
runtime panics) are modelled with `Except`/`Option`.
-/

/-! ### ELF data model (from `debug/elf` as used by the sources)

An `ElfSym` is one symbol-table entry (name, virtual address value, info byte);
`ElfProg` is one program header (type, virtual address). `ElfImage` carries the
results of `exe.Symbols()` and `exe.DynamicSymbols()` (`none` models the call
returning an error, in which case Go yields a nil slice) and the program
headers in file order. -/

structure ElfSym where
  name : String
  value : Nat
  info : Nat
deriving DecidableEq, Repr

structure ElfProg where
  ptype : Nat
  vaddr : Nat
deriving DecidableEq, Repr

structure ElfImage where
  symbols : Option (List ElfSym)
  dynSymbols : Option (List ElfSym)
  progs : List ElfProg
deriving DecidableEq, Repr

/-- `elf.STT_FUNC` -/
def STT_FUNC : Nat := 2

/-- `elf.PT_LOAD` -/
def PT_LOAD : Nat := 1

/-- `elf.ST_TYPE(info)` is the low nibble of the info byte. -/
def stType (info : Nat) : Nat := info % 16

/-- `2^64`, the modulus of Go `uint64` arithmetic. -/
def u64 : Nat := 2 ^ 64

/-- Go `uint64` subtraction `a - b` (wraps modulo `2^64`). -/
def u64sub (a b : Nat) : Nat := (a + (u64 - b % u64)) % u64

theorem u64sub_eq_sub (a b : Nat) (hba : b ≤ a) (ha : a < u64) :
    u64sub a b = a - b := by
  have hb : b < u64 := lt_of_le_of_lt hba ha
  unfold u64sub
  rw [Nat.mod_eq_of_lt hb]
  have h1 : a + (u64 - b) = (a - b) + u64 := by omega
  rw [h1, Nat.add_mod_right, Nat.mod_eq_of_lt (by omega)]

/-! ### `trace/trace.go`: `safeName` and `traceTarget.Compile` -/

/-- `safeName` (trace.go): `strings.Map` keeping exactly the runes `r` with
`r >= 'A' && r <= 'z' || r == '_'` and dropping every other rune. -/
def safeName (n : String) : String :=
  ⟨n.data.filter fun r => ('A' ≤ r && r ≤ 'z') || r == '_'⟩

/-- The fields of `traceTarget` that `Compile` fills in (plus its inputs). -/
structure TraceTarget where
  binary : String
  function : String
  targetName : String
  functionAddr : Nat
deriving DecidableEq, Repr

inductive CompileErr where
  /-- `log.Fatalf("Get symbols err: ...")`: both symbol tables failed to read. -/
  | noSymbolTable : CompileErr
  /-- `fmt.Errorf("function %s not found in %s", ...)` -/
  | symbolNotFound (function : String) (binary : String) : CompileErr
deriving DecidableEq, Repr

/-- The concatenation `symbols = append(symbols, dsyms...)` (static first, then
dynamic; a table whose read failed contributes Go's nil slice). -/
def allSyms (img : ElfImage) : List ElfSym :=
  img.symbols.getD [] ++ img.dynSymbols.getD []

/-- The symbol filter of the `Compile` scan loop: skip entries whose
`ST_TYPE` is not `STT_FUNC`, then compare the name for equality. -/
def symMatches (function : String) (s : ElfSym) : Bool :=
  stType s.info == STT_FUNC && s.name == function

/-- `addrOffset`: the `Vaddr` of the first `PT_LOAD` program header in
program-header order (`0` when no loadable segment exists). -/
def firstLoadVaddr (progs : List ElfProg) : Nat :=
  match progs.find? (fun p => p.ptype == PT_LOAD) with
  | some p => p.vaddr
  | none => 0

/-- `traceTarget.Compile` (trace.go). The `elf.Open` failure path is outside
the model (the image is the input); both symbol reads failing is
`log.Fatalf`, modelled as `.error .noSymbolTable`. On success the resolved
offset is `sym.Value - addrOffset` in `uint64` arithmetic and the event name
is `fmt.Sprintf("%s_%d", safeName(t.function), idx)`. -/
def Compile (img : ElfImage) (binary function : String) (idx : Nat) :
    Except CompileErr TraceTarget :=
  if img.symbols.isNone && img.dynSymbols.isNone then
    .error .noSymbolTable
  else
    let addrOffset := firstLoadVaddr img.progs
    match (allSyms img).find? (symMatches function) with
    | none => .error (.symbolNotFound function binary)
    | some sym =>
        .ok { binary := binary, function := function,
              targetName := safeName function ++ "_" ++ toString idx,
              functionAddr := u64sub sym.value addrOffset }

/-! ### Claims C1, C5, C6, C7 -/

/-- C1: for an ELF image whose (first, in static-then-dynamic table order)
FUNCTION-typed symbol with the requested name has virtual address `V`, and
whose first `PT_LOAD` program header has virtual address `B`,
`traceTarget.Compile` resolves the file-relative offset to `V - B`, for all
valid `V ≥ B`. -/
theorem Compile_offset (img : ElfImage) (binary function : String) (idx : Nat)
    (sym : ElfSym) (B : Nat)
    (hTables : (img.symbols.isNone && img.dynSymbols.isNone) = false)
    (hFind : (allSyms img).find? (symMatches function) = some sym)
    (hLoad : firstLoadVaddr img.progs = B)
    (hVB : B ≤ sym.value) (hV : sym.value < u64) :
    (Compile img binary function idx).map TraceTarget.functionAddr
      = .ok (sym.value - B) := by
  unfold Compile
  rw [hTables]
  simp only [Bool.false_eq_true, if_false, hFind, hLoad]
  simp [Except.map, u64sub_eq_sub sym.value B hVB hV]

/-- Concrete instance discharging the hypotheses of `Compile_offset`. -/
def img5 : ElfImage :=
  { symbols := some [⟨"main.Run", 0x48f120, 2⟩],
    dynSymbols := some [],
    progs := [⟨PT_LOAD, 0x400000⟩] }

theorem Compile_offset_witness :
    (Compile img5 "app" "main.Run" 0).map TraceTarget.functionAddr
      = .ok (0x48f120 - 0x400000) :=
  Compile_offset img5 "app" "main.Run" 0 ⟨"main.Run", 0x48f120, 2⟩ 0x400000
    (by rfl) (by rfl) (by rfl) (by decide) (by decide)

/-- C5 counterexample: the end-to-end scenario binary (`main.Run` at
`0x48f120`, first `PT_LOAD` at `0x400000`). Resolving the requested name
`Run` — a proper substring of the symbol name — does NOT yield offset
`0x8f120`: `Compile` matches names exactly, so it fails with
symbol-not-found. -/
theorem Compile_substring_cex :
    Compile img5 "app" "Run" 0 = .error (.symbolNotFound "Run" "app") := by
  rfl

/-- C5 amended: in the end-to-end scenario, resolving the exact symbol name
`main.Run` yields offset `0x8f120`, while the requested name `Run` (a proper
substring) is reported as not found: `Compile` uses exact string matching,
not substring matching. -/
theorem Compile_exact_scenario :
    (Compile img5 "app" "main.Run" 0).map TraceTarget.functionAddr = .ok 0x8f120
      ∧ Compile img5 "app" "Run" 0 = .error (.symbolNotFound "Run" "app") :=
  ⟨by rfl, by rfl⟩

/-- C6 counterexample: for the requested function name `"f1["`, the
synthesized event name is `"f[_0"`, not `"f1_0"`: the digit `'1'` (an
identifier character) is stripped while `'['` (not an identifier character)
is kept, so the event name is not "the function name with all non-identifier
characters stripped (and only those)". -/
def img6 : ElfImage :=
  { symbols := some [⟨"f1[", 0x100, 2⟩],
    dynSymbols := some [],
    progs := [⟨PT_LOAD, 0⟩] }

theorem Compile_eventName_cex :
    (Compile img6 "b" "f1[" 0).map TraceTarget.targetName = .ok "f[_0"
      ∧ "f[_0" ≠ "f1_0" :=
  ⟨by rfl, by decide⟩

/-- C6 amended: the synthesized event name is the requested function name
with every character outside the ASCII range `'A'..'z'` removed unless it is
`'_'` (so digits are removed even though they are identifier characters, and
the non-identifier characters between `'Z'` and `'a'` such as `'['` and
`']'` are kept), followed by an underscore and the disambiguating index. -/
theorem Compile_eventName (img : ElfImage) (binary function : String)
    (idx : Nat) (t : TraceTarget)
    (h : Compile img binary function idx = .ok t) :
    t.targetName
      = (⟨function.data.filter fun r => ('A' ≤ r && r ≤ 'z') || r == '_'⟩ : String)
          ++ "_" ++ toString idx := by
  unfold Compile at h
  by_cases hc : (img.symbols.isNone && img.dynSymbols.isNone) = true
  · rw [if_pos hc] at h
    exact absurd h (by simp)
  · rw [if_neg hc] at h
    cases hFind : (allSyms img).find? (symMatches function) with
    | none => rw [hFind] at h; exact absurd h (by simp)
    | some sym =>
        rw [hFind] at h
        cases h
        rfl

theorem Compile_eventName_witness :
    ({ binary := "b", function := "f1[", targetName := "f[_0",
       functionAddr := 0x100 } : TraceTarget).targetName
      = (⟨"f1[".data.filter fun r => ('A' ≤ r && r ≤ 'z') || r == '_'⟩ : String)
          ++ "_" ++ toString 0 :=
  Compile_eventName img6 "b" "f1[" 0 _ (by rfl)

/-- C7: when neither the static nor the dynamic symbol table contains a
FUNCTION-typed entry with the requested name (and at least one table was
readable), `Compile` fails with a symbol-not-found error naming the function
and the binary; it never succeeds with a zero or garbage offset. -/
theorem Compile_notFound (img : ElfImage) (binary function : String) (idx : Nat)
    (hTables : (img.symbols.isNone && img.dynSymbols.isNone) = false)
    (hNone : ∀ s ∈ allSyms img, ¬(stType s.info = STT_FUNC ∧ s.name = function)) :
    Compile img binary function idx = .error (.symbolNotFound function binary) := by
  unfold Compile
  rw [hTables]
  have hfind : (allSyms img).find? (symMatches function) = none := by
    rw [List.find?_eq_none]
    intro s hs
    have := hNone s hs
    simp only [symMatches, Bool.and_eq_true, beq_iff_eq]
    intro hcontra
    exact this ⟨hcontra.1, hcontra.2⟩
  simp only [Bool.false_eq_true, if_false, hfind]

def img7 : ElfImage :=
  { symbols := some [⟨"other", 5, 2⟩], dynSymbols := none, progs := [] }

theorem Compile_notFound_witness :
    Compile img7 "bin" "missing" 0
      = .error (.symbolNotFound "missing" "bin") :=
  Compile_notFound img7 "bin" "missing" 0 (by rfl) (by decide)

/-! ### DWARF data model (from `debug/dwarf` as used by the sources)

A `DEntry` is one flat debug record: tag, section offset, `Children` flag and
the ordered attribute/value fields. Attribute and tag constants carry the
values of Go's `debug/dwarf` package. -/

inductive AttrVal where
  | str : String → AttrVal
  | u64 : Nat → AttrVal
  | i64 : Int → AttrVal
  | off : Nat → AttrVal
deriving DecidableEq, Repr

structure DField where
  attr : Nat
  val : AttrVal
deriving DecidableEq, Repr

structure DEntry where
  tag : Nat
  offset : Nat
  children : Bool
  fields : List DField
deriving DecidableEq, Repr

/-- `dwarf.AttrName` -/
def attrName : Nat := 0x03
/-- `dwarf.AttrType` -/
def attrType : Nat := 0x49
/-- `dwarf.TagPointerType` -/
def tagPointerType : Nat := 0x0f
/-- `dwarf.TagStructType` -/
def tagStructType : Nat := 0x13
/-- `dwarf.TagSubprogram` -/
def tagSubprogram : Nat := 0x2e
/-- `dwarf.TagFormalParameter` -/
def tagFormalParameter : Nat := 0x05

/-! ### `inspect/inspect.go`: the name matching of `funcArgsAction` (claim C9)

In `funcArgsAction` the match target is `args[1]` unless `--all` is set, in
which case the variable keeps Go's zero value `""`. For a subprogram entry
the loop over its fields assigns `funcName = name` for each `AttrName` field
whose value passes the match policy (`name == matchFuncName` under
`--exact`, `strings.Contains(name, matchFuncName)` otherwise); the entry is
emitted only when the final `funcName` is non-empty. A non-string `AttrName`
value makes `field.Val.(string)` panic, modelled as `.error ()`. -/

def matchTarget (allFlag : Bool) (arg1 : String) : String :=
  if allFlag then "" else arg1

/-- Character-list prefix test (needle first). -/
def hasPfx : List Char → List Char → Bool
  | [], _ => true
  | _ :: _, [] => false
  | a :: as, b :: bs => a == b && hasPfx as bs

/-- `strings.Contains(hay, needle)`. -/
def strContains (hay needle : String) : Bool :=
  go needle.data hay.data
where
  go (needle : List Char) : List Char → Bool
    | [] => hasPfx needle []
    | c :: cs => hasPfx needle (c :: cs) || go needle cs


/-- The body of the `funcArgsAction` field loop for one field, acting on the
current `funcName` accumulator `acc`. -/
def funcNameStep (exact : Bool) (target : String) (acc : String)
    (f : DField) : Except Unit String :=
  if f.attr == attrName then
    match f.val with
    | .str name =>
        if exact then
          if name == target then Except.ok name else Except.ok acc
        else
          if strContains name target then Except.ok name else Except.ok acc
    | _ => Except.error ()
  else Except.ok acc

def subprogramFuncName (exact : Bool) (target : String)
    (fields : List DField) : Except Unit String :=
  fields.foldlM (funcNameStep exact target) ""

/-- Whether `funcArgsAction` emits the subprogram: `funcName` non-empty at
the end of the field loop (a panicking loop never emits anything). -/
def subprogramEmitted (exact : Bool) (target : String)
    (fields : List DField) : Bool :=
  match subprogramFuncName exact target fields with
  | Except.ok s => !(s == "")
  | Except.error _ => false

theorem funcNameStep_exact_empty_step (f : DField) :
    funcNameStep true "" "" f = Except.error ()
      ∨ funcNameStep true "" "" f = Except.ok "" := by
  obtain ⟨a, v⟩ := f
  cases v with
  | str name =>
      right
      simp only [funcNameStep]
      by_cases hf : (a == attrName) = true
      · rw [if_pos hf]
        by_cases hn : (name == "") = true
        · rw [if_pos trivial, if_pos hn]
          have : name = "" := by simpa using hn
          rw [this]
        · rw [if_pos trivial, if_neg hn]
      · rw [if_neg hf]
  | u64 n =>
      simp only [funcNameStep]
      by_cases hf : (a == attrName) = true
      · left; rw [if_pos hf]
      · right; rw [if_neg hf]
  | i64 n =>
      simp only [funcNameStep]
      by_cases hf : (a == attrName) = true
      · left; rw [if_pos hf]
      · right; rw [if_neg hf]
  | off o =>
      simp only [funcNameStep]
      by_cases hf : (a == attrName) = true
      · left; rw [if_pos hf]
      · right; rw [if_neg hf]

theorem foldlM_funcName_exact_empty (fields : List DField) :
    ∀ s, fields.foldlM (funcNameStep true "") "" = Except.ok s → s = "" := by
  induction fields with
  | nil =>
      intro s h
      rw [List.foldlM_nil] at h
      exact (Except.ok.inj h).symm
  | cons f rest ih =>
      intro s h
      rw [List.foldlM_cons] at h
      rcases funcNameStep_exact_empty_step f with hE | hOk
      · rw [hE] at h
        simp [Bind.bind, Except.bind] at h
      · rw [hOk] at h
        have h2 : rest.foldlM (funcNameStep true "") "" = Except.ok s := by
          simpa [Bind.bind, Except.bind] using h
        exact ih s h2

/-- C9: with both `--exact` and `--all` set on the `args` command the match
target is the empty string, so under the exact-match policy `funcName` can
only ever be assigned the empty string and no subprogram is ever emitted —
in particular no subprogram with a non-empty name is ever listed; the
`--all` flag is nullified by `--exact`. -/
theorem argsExactAll_nullified (arg1 : String) (fields : List DField) :
    subprogramEmitted true (matchTarget true arg1) fields = false := by
  have htgt : matchTarget true arg1 = "" := rfl
  rw [htgt]
  unfold subprogramEmitted subprogramFuncName
  cases hres : fields.foldlM (funcNameStep true "") "" with
  | error e => rfl
  | ok s =>
      have hs : s = "" := foldlM_funcName_exact_empty fields s hres
      subst hs
      rfl

/-! ### `inspect/inspect.go`: `findType` (claims C3 and C10)

`findType` walks the field list of an entry; the first field with attribute
`AttrType` decides the result (fields with other attributes are skipped, and
once an `AttrType` field is processed the function returns in every branch,
so later fields are never reached — the scan is translated as `find?`).
The referenced offset is looked up in the root's offset index; Go's map
yields a nil `*Node` for a missing key and `.Entry` on it panics
(`.error .nilDeref`). A failed type assertion on a field value also panics
(`.error .castFail`). Go's unbounded recursion is modelled with fuel;
`.error .noFuel` marks a recursion deeper than the supplied fuel. -/

/-- The root's offset index. The Go map stores `*Node`; only the node's
`Entry` is consumed by `findType`, so the embedding maps offsets to entries.
Insertion conses, so lookup from the head gives last-write-wins, matching
map overwrite. -/
def omLookup (m : List (Nat × DEntry)) (k : Nat) : Option DEntry :=
  match m with
  | [] => none
  | (k2, v) :: rest => if k2 = k then some v else omLookup rest k

/-- The value of the first field with attribute `AttrType`, if any. -/
def firstTypeVal (fields : List DField) : Option AttrVal :=
  (fields.find? fun g => g.attr == attrType).map DField.val

/-- The value of the first field with attribute `AttrName`, if any
(the inner name-scanning loop of `findType`). -/
def firstNameVal (fields : List DField) : Option AttrVal :=
  (fields.find? fun g => g.attr == attrName).map DField.val

/-- The `modifier` accumulated from the referenced record's tag:
`"struct "` for a struct type, then `"*"` for a pointer type. -/
def modFromTag (t : Nat) : String :=
  (if t == tagStructType then "struct " else "")
    ++ (if t == tagPointerType then "*" else "")

/-- `strings.HasPrefix(s, "*")`. -/
def starLeads (s : String) : Bool :=
  match s.data with
  | '*' :: _ => true
  | _ => false

def dropOneStarL : List Char → List Char
  | [] => []
  | c :: cs => if c = '*' then cs else c :: dropOneStarL cs

/-- `strings.Replace(s, "*", "", 1)`: remove the first `'*'`, if any. -/
def dropOneStar (s : String) : String := ⟨dropOneStarL s.data⟩

inductive FtErr where
  | nilDeref : FtErr
  | castFail : FtErr
  | noFuel : FtErr
deriving DecidableEq, Repr

/-- `findType` (inspect.go). For the first `AttrType` field: fetch the
referenced entry through the offset index (nil-dereference panic when the
offset is absent), build the tag modifier, return `modifier + name` at the
first `AttrName` field of the referenced entry (suppressing one `'*'` of
the modifier when the name itself starts with `'*'`), and otherwise recurse
into the referenced entry, prefixing the modifier. No `AttrType` field
yields `""`. -/
def findType (root : List (Nat × DEntry)) : Nat → DEntry → Except FtErr String
  | 0, _ => .error .noFuel
  | fuel + 1, entry =>
    match firstTypeVal entry.fields with
    | none => .ok ""
    | some (.off o) =>
        match omLookup root o with
        | none => .error .nilDeref
        | some ty =>
            let modifier := modFromTag ty.tag
            match firstNameVal ty.fields with
            | some (.str s) =>
                .ok ((if starLeads s then dropOneStar modifier else modifier) ++ s)
            | some _ => .error .castFail
            | none => (findType root fuel ty).map (fun r => modifier ++ r)
    | some _ => .error .castFail

/-! #### Claim C3 -/

/-- One link of a type-reference chain: the first `AttrType` field of `e`
references offset `o`, which the index resolves to `w`. -/
def ChainLink (root : List (Nat × DEntry)) (e w : DEntry) : Prop :=
  ∃ o, firstTypeVal e.fields = some (.off o) ∧ omLookup root o = some w

/-- A chain from `e` through the anonymous wrapper records `ws` (each
without an `AttrName` field) to the record `b`. -/
inductive TypeChain (root : List (Nat × DEntry)) : DEntry → List DEntry → DEntry → Prop
  | last : ∀ e b, ChainLink root e b → TypeChain root e [] b
  | step : ∀ e w ws b, ChainLink root e w → firstNameVal w.fields = none →
      TypeChain root w ws b → TypeChain root e (w :: ws) b

/-- The name `findType` produces along a chain: each wrapper record
contributes the modifier of its own tag unconditionally; only the modifier
of the record that carries the name is star-suppressed when the name itself
starts with `'*'`. -/
def chainResult (bTag : Nat) (s : String) : List DEntry → String
  | [] => (if starLeads s then dropOneStar (modFromTag bTag) else modFromTag bTag) ++ s
  | w :: ws => modFromTag w.tag ++ chainResult bTag s ws

/-- C3 amended: for a chain of type references from `e` through anonymous
wrapper records `ws` to a record `b` whose first `AttrName` field carries
the name `s`, `findType` returns one tag modifier per record of the chain —
one `"*"` for EACH pointer-tagged record, not exactly one overall — with
the star suppression applying only to the modifier of `b` itself (the level
where the name is found), and only when `s` starts with `"*"`. -/
theorem findType_chain (root : List (Nat × DEntry)) (e : DEntry)
    (ws : List DEntry) (b : DEntry) (s : String)
    (hchain : TypeChain root e ws b)
    (hname : firstNameVal b.fields = some (.str s)) :
    ∀ fuel, ws.length < fuel →
      findType root fuel e = .ok (chainResult b.tag s ws) := by
  induction hchain with
  | last e b hlink =>
      intro fuel hfuel
      obtain ⟨o, h1, h2⟩ := hlink
      cases fuel with
      | zero => omega
      | succ f =>
          show findType root (f + 1) e = _
          unfold findType
          rw [h1]
          dsimp only
          rw [h2]
          dsimp only
          rw [hname]
          rfl
  | step e w ws b hlink hanon htail ih =>
      intro fuel hfuel
      obtain ⟨o, h1, h2⟩ := hlink
      cases fuel with
      | zero => omega
      | succ f =>
          have hf : ws.length < f := by
            simpa [List.length_cons] using Nat.lt_of_succ_lt_succ hfuel
          show findType root (f + 1) e = _
          unfold findType
          rw [h1]
          dsimp only
          rw [h2]
          dsimp only
          rw [hanon, ih hname f hf]
          rfl

/-- C3 counterexample data: a formal parameter whose type attribute leads
through TWO anonymous pointer-type records to the named base type `int`. -/
def paramB : DEntry := ⟨tagFormalParameter, 1, false, [⟨attrType, .off 10⟩]⟩
def ptrB1 : DEntry := ⟨tagPointerType, 10, false, [⟨attrType, .off 11⟩]⟩
def ptrB2 : DEntry := ⟨tagPointerType, 11, false, [⟨attrType, .off 12⟩]⟩
def intB : DEntry := ⟨0x24, 12, false, [⟨attrName, .str "int"⟩]⟩
def rootB : List (Nat × DEntry) := [(1, paramB), (10, ptrB1), (11, ptrB2), (12, intB)]

/-- C3 counterexample: a pointer chain of depth 2 resolves to `"**int"` —
TWO leading `'*'` characters, not exactly one: each pointer record in the
chain contributes its own `"*"`. -/
theorem findType_twoStars_cex :
    findType rootB 5 paramB = .ok "**int"
      ∧ ("**int".data.takeWhile fun c => c == '*').length ≠ 1 :=
  ⟨by rfl, by decide⟩

/-- C3 witness data: one anonymous pointer record, then the named base. -/
def paramA : DEntry := ⟨tagFormalParameter, 2, false, [⟨attrType, .off 20⟩]⟩
def ptrA : DEntry := ⟨tagPointerType, 20, false, [⟨attrType, .off 22⟩]⟩
def intA : DEntry := ⟨0x24, 22, false, [⟨attrName, .str "int"⟩]⟩
def rootA : List (Nat × DEntry) := [(2, paramA), (20, ptrA), (22, intA)]

theorem findType_chain_witness : findType rootA 5 paramA = .ok "*int" := by
  have h := findType_chain rootA paramA [ptrA] intA "int"
    (TypeChain.step _ _ _ _ ⟨20, rfl, rfl⟩ rfl (TypeChain.last _ _ ⟨22, rfl, rfl⟩))
    rfl 5 (by decide)
  exact h.trans (by rfl)

/-! #### Claim C10 -/

theorem omLookup_mem (m : List (Nat × DEntry)) (k : Nat) (v : DEntry)
    (h : omLookup m k = some v) : (k, v) ∈ m := by
  induction m with
  | nil => simp [omLookup] at h
  | cons p rest ih =>
      obtain ⟨k2, v2⟩ := p
      unfold omLookup at h
      by_cases hk : k2 = k
      · rw [if_pos hk] at h
        injection h with hv
        subst hv
        subst hk
        exact List.mem_cons_self _ _
      · rw [if_neg hk] at h
        exact List.mem_cons_of_mem _ (ih h)

theorem firstTypeVal_mem (fields : List DField) (v : AttrVal)
    (h : firstTypeVal fields = some v) :
    ∃ g ∈ fields, g.attr = attrType ∧ g.val = v := by
  unfold firstTypeVal at h
  rw [Option.map_eq_some'] at h
  obtain ⟨g, hg, hv⟩ := h
  exact ⟨g, List.mem_of_find?_eq_some hg,
    by simpa using List.find?_some hg, hv⟩

/-- Whether a single attribute value's type reference (if it is one) is a
key of the offset index. -/
def offClosedB (m : List (Nat × DEntry)) : AttrVal → Bool
  | .off o => (omLookup m o).isSome
  | _ => true

/-- Every `AttrType` field of `fields` references a key of the index. -/
def fieldsClosed (m : List (Nat × DEntry)) (fields : List DField) : Prop :=
  ∀ g ∈ fields, g.attr = attrType → offClosedB m g.val = true

/-- Every `AttrType` offset appearing anywhere in the indexed entries is
itself a key of the index ("every type-attribute offset appearing in the
tree is a key of the index"). -/
def mapClosed (m : List (Nat × DEntry)) : Prop :=
  ∀ p ∈ m, fieldsClosed m p.2.fields

/-- C10: `findType` dereferences the offset-index lookup without a presence
check. First conjunct: under the precondition that every type-attribute
offset in the index (and in the queried entry) is a key of the index, the
lookup always yields the referenced record and `findType` never
nil-panics. Second conjunct: when the entry's type attribute references an
offset absent from the index, `findType` dereferences the nil node and
panics (modelled `.error .nilDeref`) instead of returning an error value or
an empty type name. -/
theorem findType_index :
    (∀ m fuel e, mapClosed m → fieldsClosed m e.fields →
        findType m fuel e ≠ Except.error FtErr.nilDeref)
    ∧ (∀ m fuel e o, firstTypeVal e.fields = some (AttrVal.off o) →
        omLookup m o = none →
        findType m (fuel + 1) e = Except.error FtErr.nilDeref) := by
  constructor
  · intro m fuel
    induction fuel with
    | zero =>
        intro e hm he
        simp [findType]
    | succ f ih =>
        intro e hm he
        cases h1 : firstTypeVal e.fields with
        | none =>
            unfold findType
            rw [h1]
            simp
        | some v =>
            cases v with
            | str s =>
                unfold findType
                rw [h1]
                simp
            | u64 n =>
                unfold findType
                rw [h1]
                simp
            | i64 n =>
                unfold findType
                rw [h1]
                simp
            | off o =>
                obtain ⟨g, hgmem, hgattr, hgval⟩ := firstTypeVal_mem e.fields _ h1
                have hclosed := he g hgmem hgattr
                rw [hgval] at hclosed
                have hsome : (omLookup m o).isSome = true := by
                  simpa [offClosedB] using hclosed
                obtain ⟨ty, hty⟩ := Option.isSome_iff_exists.mp hsome
                unfold findType
                rw [h1]
                dsimp only
                rw [hty]
                dsimp only
                cases h3 : firstNameVal ty.fields with
                | none =>
                    have hty2 : fieldsClosed m ty.fields :=
                      hm (o, ty) (omLookup_mem m o ty hty)
                    have hrec := ih ty hm hty2
                    intro hcontra
                    cases hres : findType m f ty with
                    | error err =>
                        rw [hres] at hcontra
                        simp only [Except.map] at hcontra
                        injection hcontra with herr
                        exact hrec (by rw [hres, herr])
                    | ok r =>
                        rw [hres] at hcontra
                        simp [Except.map] at hcontra
                | some w =>
                    cases w with
                    | str s2 => simp
                    | u64 n2 => simp
                    | i64 n2 => simp
                    | off o2 => simp
  · intro m fuel e o h1 h2
    unfold findType
    rw [h1]
    dsimp only
    rw [h2]

instance (m : List (Nat × DEntry)) (fields : List DField) :
    Decidable (fieldsClosed m fields) := by
  unfold fieldsClosed
  infer_instance

instance (m : List (Nat × DEntry)) : Decidable (mapClosed m) := by
  unfold mapClosed
  infer_instance

/-- C10 witness data: a two-record index closed under type references, and
an entry referencing an absent offset. -/
def entC : DEntry := ⟨5, 1, false, [⟨attrType, .off 2⟩]⟩
def baseC : DEntry := ⟨0x24, 2, false, [⟨attrName, .str "u8"⟩]⟩
def mapC : List (Nat × DEntry) := [(1, entC), (2, baseC)]
def badC : DEntry := ⟨5, 3, false, [⟨attrType, .off 9⟩]⟩

theorem findType_index_witness :
    findType mapC 3 entC ≠ Except.error FtErr.nilDeref
      ∧ findType mapC (2 + 1) badC = Except.error FtErr.nilDeref :=
  ⟨findType_index.1 mapC 3 entC (by decide) (by decide),
   findType_index.2 mapC 2 badC 9 (by rfl) (by rfl)⟩

/-! ### `internal/dwarfutil`: `readBuildID` and `FindDwarf` (claim C4)

The filesystem is modelled as an association of paths to ELF files; an
`ElfDebugFile` records whether `(*elf.File).DWARF()` succeeds, the raw bytes
of the `.note.gnu.build-id` section (`none` when the section is absent), and
the parsed result of `readDebugLink` (whose byte-level parsing of
`.gnu_debuglink` is abstracted as its result, since no claim depends on it). -/

structure DebugLinkRec where
  name : String
  crc : List Nat
deriving DecidableEq, Repr

structure ElfDebugFile where
  hasDwarf : Bool
  buildIDNote : Option (List Nat)
  debugLinkSec : Option DebugLinkRec
deriving DecidableEq, Repr

def fsOpen (fs : List (String × ElfDebugFile)) (path : String) : Option ElfDebugFile :=
  (fs.find? fun p => p.1 == path).map Prod.snd

def le32 (b0 b1 b2 b3 : Nat) : Nat := b0 + 256 * (b1 + 256 * (b2 + 256 * b3))

/-- Go `encoding/binary.Read` of a `buildIDHeader` (three little-endian
`uint32`s). `binary.Read` requires its destination to be a pointer (or a
slice); when the destination is a struct value it returns an
invalid-type error without reading anything. `intoPointer` records how the
destination was passed. -/
def binaryReadBuildIDHeader (intoPointer : Bool) (bytes : List Nat) :
    Option (Nat × Nat × Nat) :=
  if intoPointer then
    match bytes with
    | b0 :: b1 :: b2 :: b3 :: b4 :: b5 :: b6 :: b7 :: b8 :: b9 :: b10 :: b11 :: _ =>
        some (le32 b0 b1 b2 b3, le32 b4 b5 b6 b7, le32 b8 b9 b10 b11)
    | _ => none
  else none

def hexDigit (n : Nat) : Char :=
  if n < 10 then Char.ofNat (48 + n) else Char.ofNat (87 + n)

def hexByte (b : Nat) : List Char := [hexDigit (b / 16 % 16), hexDigit (b % 16)]

/-- `hex.EncodeToString`. -/
def hexEncode (bs : List Nat) : String :=
  ⟨bs.foldr (fun b acc => hexByte b ++ acc) []⟩

/-- `readBuildID` (dwarfutil), parameterised by how the header struct is
passed to `binary.Read`. The SOURCE passes `bh` by value (not `&bh`), which
is `intoPointer = false`. On any error — including the invalid-type error
from `binary.Read` — the function returns `""`. -/
def readBuildIDWith (intoPointer : Bool) (e : ElfDebugFile) : String :=
  match e.buildIDNote with
  | none => ""
  | some bytes =>
      match binaryReadBuildIDHeader intoPointer bytes with
      | none => ""
      | some (namesz, descsz, _) =>
          let rest := bytes.drop 12
          if rest.length < namesz then ""
          else
            let rest2 := rest.drop namesz
            if rest2.length < descsz then ""
            else hexEncode (rest2.take descsz)

/-- `readBuildID` as written: `binary.Read(r, binary.LittleEndian, bh)`
passes the header struct by value. -/
def readBuildID : ElfDebugFile → String := readBuildIDWith false

/-- `filepath.Dir` for the clean paths used here: everything before the
last `/` (`"."` when there is no slash, `"/"` for a file in the root). -/
def dirPath (p : String) : String :=
  match p.data.reverse.dropWhile (fun c => !(c == '/')) with
  | [] => "."
  | [_] => "/"
  | _ :: t => ⟨t.reverse⟩

/-- `filepath.Join` of two clean components (absorbing a leading slash of
the second, as `filepath.Clean` would collapse the doubled separator). -/
def joinPath (a b : String) : String :=
  if b.data.head? = some '/' then a ++ b else a ++ "/" ++ b

def existsAndHasDwarf (fs : List (String × ElfDebugFile)) (p : String) : Bool :=
  match fsOpen fs p with
  | none => false
  | some e => e.hasDwarf

/-- `FindDwarf` (dwarfutil), parameterised by the build-id reader so that the
behaviour the source's comment intends (pointer destination) can be compared
with the behaviour as written (value destination). Checks the input itself,
then collects the build-id store candidate (first two hex characters as the
directory, the rest plus `".debug"` as the filename) when the build id is
non-empty, then the three debug-link candidates, and returns the first
candidate that opens as an ELF with debug info. -/
def FindDwarfWith (bidReader : ElfDebugFile → String)
    (fs : List (String × ElfDebugFile)) (path : String) : Except String String :=
  match fsOpen fs path with
  | none => .error "open failed"
  | some e =>
      if e.hasDwarf then .ok path
      else
        let buildID := bidReader e
        let bidPaths :=
          if buildID = "" then []
          else [joinPath (joinPath "/usr/lib/debug/.build-id" (buildID.take 2))
                  (buildID.drop 2 ++ ".debug")]
        let linkPaths :=
          match e.debugLinkSec with
          | none => []
          | some dl =>
              [joinPath (dirPath path) dl.name,
               joinPath (joinPath (dirPath path) ".debug") dl.name,
               joinPath (joinPath "/usr/lib/debug" (dirPath path)) dl.name]
        match (bidPaths ++ linkPaths).find? (existsAndHasDwarf fs) with
        | some p => .ok p
        | none => .error "no debug symbols found"

def FindDwarf : List (String × ElfDebugFile) → String → Except String String :=
  FindDwarfWith readBuildID

/-- C4 failing input: `/bin/app` has no debug info but carries a well-formed
build-id note (`namesz = 4`, `descsz = 4`, name `"GNU\0"`, desc
`de ad be ef`), and the conventional store path
`/usr/lib/debug/.build-id/de/adbeef.debug` exists with debug info. -/
def noteBytes : List Nat :=
  [4, 0, 0, 0, 4, 0, 0, 0, 3, 0, 0, 0, 71, 78, 85, 0, 0xde, 0xad, 0xbe, 0xef]

def appElf : ElfDebugFile :=
  { hasDwarf := false, buildIDNote := some noteBytes, debugLinkSec := none }

def storeElf : ElfDebugFile :=
  { hasDwarf := true, buildIDNote := none, debugLinkSec := none }

def fs4 : List (String × ElfDebugFile) :=
  [("/bin/app", appElf), ("/usr/lib/debug/.build-id/de/adbeef.debug", storeElf)]

/-- C4 (code bug): the note encodes the build id `"deadbeef"` — reading the
header into a pointer destination decodes it — but `readBuildID` as written
passes the header struct to `binary.Read` by value, so the read always
fails, the build id is `""`, and `FindDwarf` never probes (and here fails
to find) the conventional store path `/usr/lib/debug/.build-id/de/adbeef.debug`
that the same `FindDwarf` logic with the corrected reader returns. -/
theorem FindDwarf_buildid_bug :
    readBuildIDWith true appElf = "deadbeef"
      ∧ readBuildID appElf = ""
      ∧ FindDwarf fs4 "/bin/app" = .error "no debug symbols found"
      ∧ FindDwarfWith (readBuildIDWith true) fs4 "/bin/app"
          = .ok "/usr/lib/debug/.build-id/de/adbeef.debug" :=
  ⟨by rfl, by rfl, by rfl, by rfl⟩

/-! ### `internal/dwarfutil`: `Tree` (claims C2 and C8)

`dwarfutil.Tree` reads the flat record stream once, keeping a stack of
"current parent" nodes. Go mutates nodes in place through pointers held both
by the stack and by their parents; in the functional embedding a frame is
the pair of a record and the children accumulated for it so far, a completed
frame is attached to the frame below it when it is popped, and frames still
open at the end of the stream are folded into their parents
(`collapseInto`), which reproduces the final pointer structure. The first
record seeds the root and is then ALSO processed like every other record
(the loop body in the source runs for it too), so it is duplicated as the
root's first child. A pop or parent access on an empty stack is a Go
slice-bounds / index-out-of-range panic, modelled as `none`; an empty stream
leaves `root` nil (every use would panic), also `none`. -/

/-- `dwarfutil.Node` as a pure tree: the wrapped record plus the ordered
children. (The Go struct's root-only `OffsetMap` is returned alongside the
tree by `Tree` below; only entries are consumed through it.) -/
inductive Node where
  | mk : DEntry → List Node → Node

def Node.entry : Node → DEntry
  | .mk e _ => e

def Node.children : Node → List Node
  | .mk _ ks => ks

/-- The synthetic terminator test:
`entry.Children == false && entry.Offset == 0 && entry.Tag == 0`. -/
def isTerm (e : DEntry) : Bool := !e.children && e.offset == 0 && e.tag == 0

/-- A canonical terminator record. -/
def termRec : DEntry := ⟨0, 0, false, []⟩

def closeFrame (f : DEntry × List Node) : Node := Node.mk f.1 f.2

structure TState where
  stack : List (DEntry × List Node)
  omap : List (Nat × DEntry)
  rootDone : Option Node

/-- One loop iteration of `Tree` for one record (after the root has been
seeded): insert into the offset index, then either pop (terminator), or
append to the current parent and push when the record owns children. -/
def stepEntry (s : TState) (e : DEntry) : Option TState :=
  let m2 := (e.offset, e) :: s.omap
  if isTerm e then
    match s.stack with
    | [] => none
    | [f] => some { stack := [], omap := m2, rootDone := some (closeFrame f) }
    | f :: g :: rest =>
        some { stack := (g.1, g.2 ++ [closeFrame f]) :: rest, omap := m2,
               rootDone := s.rootDone }
  else
    match s.stack with
    | [] => none
    | (pe, pk) :: rest =>
        if e.children then
          some { stack := (e, []) :: (pe, pk) :: rest, omap := m2,
                 rootDone := s.rootDone }
        else
          some { stack := (pe, pk ++ [Node.mk e []]) :: rest, omap := m2,
                 rootDone := s.rootDone }

def runEntries (s : TState) : List DEntry → Option TState
  | [] => some s
  | e :: es =>
      match stepEntry s e with
      | none => none
      | some s2 => runEntries s2 es

def collapseInto (n : Node) : List (DEntry × List Node) → Node
  | [] => n
  | g :: rest => collapseInto (Node.mk g.1 (g.2 ++ [n])) rest

def collapseStack : List (DEntry × List Node) → Option Node
  | [] => none
  | f :: rest => some (collapseInto (closeFrame f) rest)

/-- `dwarfutil.Tree`: seed the root with the first record, run the loop over
every record (the first included), and return the root together with the
offset index. (Namespaced: Mathlib already has a root-level `Tree`.) -/
def dwarfutil.Tree : List DEntry → Option (Node × List (Nat × DEntry))
  | [] => none
  | e0 :: rest =>
      match runEntries { stack := [(e0, [])], omap := [], rootDone := none }
              (e0 :: rest) with
      | none => none
      | some s =>
          match s.rootDone with
          | some r => some (r, s.omap)
          | none =>
              match collapseStack s.stack with
              | none => none
              | some r => some (r, s.omap)

/-- The records of the stream that are not the synthetic terminator. -/
def nonTermCount (es : List DEntry) : Nat :=
  (es.filter fun e => !isTerm e).length

mutual
def Node.size : Node → Nat
  | .mk _ ks => 1 + sizeNodes ks
def sizeNodes : List Node → Nat
  | [] => 0
  | n :: ns => Node.size n + sizeNodes ns
end

theorem sizeNodes_append (as bs : List Node) :
    sizeNodes (as ++ bs) = sizeNodes as + sizeNodes bs := by
  induction as with
  | nil => simp [sizeNodes]
  | cons a as ih => simp [sizeNodes, ih]; omega

theorem Node_size_pos (n : Node) : 1 ≤ n.size := by
  cases n with
  | mk e ks => simp [Node.size]

def frameSize (f : DEntry × List Node) : Nat := 1 + sizeNodes f.2

def stackSize : List (DEntry × List Node) → Nat
  | [] => 0
  | f :: rest => frameSize f + stackSize rest

def rootSize : Option Node → Nat
  | none => 0
  | some r => r.size

def stateSize (s : TState) : Nat := stackSize s.stack + rootSize s.rootDone

theorem nonTermCount_cons (e : DEntry) (es : List DEntry) :
    nonTermCount (e :: es) = (if isTerm e then 0 else 1) + nonTermCount es := by
  by_cases ht : isTerm e = true
  · simp [nonTermCount, List.filter_cons, ht]
  · simp [nonTermCount, List.filter_cons, ht]
    omega

theorem collapseInto_size (fs : List (DEntry × List Node)) :
    ∀ n : Node, (collapseInto n fs).size = n.size + stackSize fs := by
  induction fs with
  | nil => intro n; simp [collapseInto, stackSize]
  | cons g rest ih =>
      intro n
      simp only [collapseInto, stackSize]
      rw [ih]
      simp [Node.size, sizeNodes_append, sizeNodes, frameSize]
      omega

/-! #### Step shapes of the `Tree` loop -/

theorem stepEntry_empty (s : TState) (e : DEntry) (hst : s.stack = []) :
    stepEntry s e = none := by
  by_cases ht : isTerm e = true <;> simp [stepEntry, hst, ht]

theorem stepEntry_pop1 (s : TState) (e : DEntry) (f : DEntry × List Node)
    (hterm : isTerm e = true) (hst : s.stack = [f]) :
    stepEntry s e = some { stack := [], omap := (e.offset, e) :: s.omap,
                           rootDone := some (closeFrame f) } := by
  simp [stepEntry, hterm, hst]

theorem stepEntry_pop2 (s : TState) (e : DEntry) (f g : DEntry × List Node)
    (rest : List (DEntry × List Node))
    (hterm : isTerm e = true) (hst : s.stack = f :: g :: rest) :
    stepEntry s e = some { stack := (g.1, g.2 ++ [closeFrame f]) :: rest,
                           omap := (e.offset, e) :: s.omap,
                           rootDone := s.rootDone } := by
  simp [stepEntry, hterm, hst]

theorem stepEntry_push (s : TState) (e : DEntry) (f : DEntry × List Node)
    (rest : List (DEntry × List Node))
    (hterm : isTerm e = false) (hch : e.children = true)
    (hst : s.stack = f :: rest) :
    stepEntry s e = some { stack := (e, []) :: f :: rest,
                           omap := (e.offset, e) :: s.omap,
                           rootDone := s.rootDone } := by
  obtain ⟨fe, fk⟩ := f
  simp [stepEntry, hterm, hch, hst]

theorem stepEntry_leaf (s : TState) (e : DEntry) (f : DEntry × List Node)
    (rest : List (DEntry × List Node))
    (hterm : isTerm e = false) (hch : e.children = false)
    (hst : s.stack = f :: rest) :
    stepEntry s e = some { stack := (f.1, f.2 ++ [Node.mk e []]) :: rest,
                           omap := (e.offset, e) :: s.omap,
                           rootDone := s.rootDone } := by
  obtain ⟨fe, fk⟩ := f
  simp [stepEntry, hterm, hch, hst]

/-! #### Invariant: once the root frame is popped the stack is empty -/

theorem stepEntry_inv (s s2 : TState) (e : DEntry)
    (hinv : s.rootDone = none ∨ s.stack = [])
    (h : stepEntry s e = some s2) :
    s2.rootDone = none ∨ s2.stack = [] := by
  have hroot : s.stack ≠ [] → s.rootDone = none := by
    intro hne
    rcases hinv with h3 | h3
    · exact h3
    · exact absurd h3 hne
  by_cases ht : isTerm e = true
  · cases hst : s.stack with
    | nil => rw [stepEntry_empty s e hst] at h; exact absurd h (by simp)
    | cons f rest =>
        cases rest with
        | nil =>
            rw [stepEntry_pop1 s e f ht hst] at h
            injection h with h2
            subst h2
            right
            rfl
        | cons g rest2 =>
            rw [stepEntry_pop2 s e f g rest2 ht hst] at h
            injection h with h2
            subst h2
            left
            exact hroot (by rw [hst]; simp)
  · have hf : isTerm e = false := by
      cases hcc : isTerm e
      · rfl
      · exact absurd hcc ht
    cases hst : s.stack with
    | nil => rw [stepEntry_empty s e hst] at h; exact absurd h (by simp)
    | cons f rest =>
        by_cases hc : e.children = true
        · rw [stepEntry_push s e f rest hf hc hst] at h
          injection h with h2
          subst h2
          left
          exact hroot (by rw [hst]; simp)
        · have hc2 : e.children = false := by
            cases hcc : e.children
            · rfl
            · exact absurd hcc hc
          rw [stepEntry_leaf s e f rest hf hc2 hst] at h
          injection h with h2
          subst h2
          left
          exact hroot (by rw [hst]; simp)

/-! #### Node count -/

theorem stepEntry_size (s s2 : TState) (e : DEntry)
    (hinv : s.rootDone = none ∨ s.stack = [])
    (h : stepEntry s e = some s2) :
    stateSize s2 = stateSize s + (if isTerm e then 0 else 1) := by
  have hroot : s.stack ≠ [] → s.rootDone = none := by
    intro hne
    rcases hinv with h3 | h3
    · exact h3
    · exact absurd h3 hne
  by_cases ht : isTerm e = true
  · cases hst : s.stack with
    | nil => rw [stepEntry_empty s e hst] at h; exact absurd h (by simp)
    | cons f rest =>
        have hrd : s.rootDone = none := hroot (by rw [hst]; simp)
        cases rest with
        | nil =>
            rw [stepEntry_pop1 s e f ht hst] at h
            injection h with h2
            subst h2
            simp [stateSize, hst, hrd, stackSize, rootSize, frameSize,
              closeFrame, Node.size, ht]
        | cons g rest2 =>
            rw [stepEntry_pop2 s e f g rest2 ht hst] at h
            injection h with h2
            subst h2
            simp [stateSize, hst, hrd, stackSize, rootSize, frameSize,
              closeFrame, Node.size, sizeNodes_append, sizeNodes, ht]
            omega
  · have hf : isTerm e = false := by
      cases hcc : isTerm e
      · rfl
      · exact absurd hcc ht
    cases hst : s.stack with
    | nil => rw [stepEntry_empty s e hst] at h; exact absurd h (by simp)
    | cons f rest =>
        have hrd : s.rootDone = none := hroot (by rw [hst]; simp)
        by_cases hc : e.children = true
        · rw [stepEntry_push s e f rest hf hc hst] at h
          injection h with h2
          subst h2
          simp [stateSize, hst, hrd, stackSize, rootSize, frameSize,
            sizeNodes, hf]
          omega
        · have hc2 : e.children = false := by
            cases hcc : e.children
            · rfl
            · exact absurd hcc hc
          rw [stepEntry_leaf s e f rest hf hc2 hst] at h
          injection h with h2
          subst h2
          simp [stateSize, hst, hrd, stackSize, rootSize, frameSize,
            sizeNodes_append, sizeNodes, Node.size, hf]
          omega

theorem runEntries_size_inv (es : List DEntry) :
    ∀ s s2 : TState, (s.rootDone = none ∨ s.stack = []) →
      runEntries s es = some s2 →
      (s2.rootDone = none ∨ s2.stack = [])
        ∧ stateSize s2 = stateSize s + nonTermCount es := by
  induction es with
  | nil =>
      intro s s2 hinv h
      simp only [runEntries] at h
      injection h with h2
      subst h2
      exact ⟨hinv, by simp [nonTermCount]⟩
  | cons e es ih =>
      intro s s2 hinv h
      simp only [runEntries] at h
      cases hstep : stepEntry s e with
      | none => rw [hstep] at h; exact absurd h (by simp)
      | some s1 =>
          rw [hstep] at h
          have hinv1 := stepEntry_inv s s1 e hinv hstep
          have hsz1 := stepEntry_size s s1 e hinv hstep
          obtain ⟨hinv2, hsz2⟩ := ih s1 s2 hinv1 h
          refine ⟨hinv2, ?_⟩
          rw [hsz2, hsz1, nonTermCount_cons]
          omega

/-! #### No terminator record is ever attached as a child -/

mutual
def goodNode : Node → Bool
  | .mk _ ks => goodKids ks
def goodKids : List Node → Bool
  | [] => true
  | k :: ks => !isTerm k.entry && goodNode k && goodKids ks
end

theorem goodKids_append (as bs : List Node) :
    goodKids (as ++ bs) = (goodKids as && goodKids bs) := by
  induction as with
  | nil => simp [goodKids]
  | cons a as ih => simp [goodKids, ih, Bool.and_assoc]

/-- Well-formedness of a `Tree` stack: every frame's accumulated children
are good, and every frame except the bottom (root) one holds a
non-terminator record. -/
def goodStack : List (DEntry × List Node) → Bool
  | [] => true
  | [f] => goodKids f.2
  | f :: g :: rest => !isTerm f.1 && goodKids f.2 && goodStack (g :: rest)

theorem goodStack_attach (g : DEntry × List Node)
    (rest : List (DEntry × List Node)) (n : Node)
    (hg : goodStack (g :: rest) = true)
    (hn1 : isTerm n.entry = false) (hn2 : goodNode n = true) :
    goodStack ((g.1, g.2 ++ [n]) :: rest) = true := by
  cases rest with
  | nil =>
      simp only [goodStack] at hg ⊢
      rw [goodKids_append]
      simp [goodKids, hg, hn1, hn2]
  | cons h2 t =>
      simp only [goodStack, Bool.and_eq_true] at hg ⊢
      rw [goodKids_append]
      simp [goodKids, hg.1.1, hg.1.2, hg.2, hn1, hn2]

theorem stepEntry_good (s s2 : TState) (e : DEntry)
    (h : stepEntry s e = some s2)
    (hg : goodStack s.stack = true)
    (hr : ∀ r, s.rootDone = some r → goodNode r = true) :
    goodStack s2.stack = true
      ∧ ∀ r, s2.rootDone = some r → goodNode r = true := by
  by_cases ht : isTerm e = true
  · cases hst : s.stack with
    | nil => rw [stepEntry_empty s e hst] at h; exact absurd h (by simp)
    | cons f rest =>
        rw [hst] at hg
        cases rest with
        | nil =>
            rw [stepEntry_pop1 s e f ht hst] at h
            injection h with h2
            subst h2
            refine ⟨by simp [goodStack], ?_⟩
            intro r hrr
            injection hrr with h3
            subst h3
            simp only [goodStack] at hg
            simpa [goodNode, closeFrame] using hg
        | cons g rest2 =>
            rw [stepEntry_pop2 s e f g rest2 ht hst] at h
            injection h with h2
            subst h2
            simp only [goodStack, Bool.and_eq_true] at hg
            refine ⟨?_, ?_⟩
            · apply goodStack_attach g rest2 (closeFrame f) hg.2
              · simpa [closeFrame, Node.entry] using hg.1.1
              · simpa [closeFrame, goodNode] using hg.1.2
            · intro r hrr
              exact hr r hrr
  · have hf : isTerm e = false := by
      cases hcc : isTerm e
      · rfl
      · exact absurd hcc ht
    cases hst : s.stack with
    | nil => rw [stepEntry_empty s e hst] at h; exact absurd h (by simp)
    | cons f rest =>
        rw [hst] at hg
        by_cases hc : e.children = true
        · rw [stepEntry_push s e f rest hf hc hst] at h
          injection h with h2
          subst h2
          refine ⟨?_, fun r hrr => hr r hrr⟩
          simp [goodStack, goodKids, hf, hg]
        · have hc2 : e.children = false := by
            cases hcc : e.children
            · rfl
            · exact absurd hcc hc
          rw [stepEntry_leaf s e f rest hf hc2 hst] at h
          injection h with h2
          subst h2
          refine ⟨?_, fun r hrr => hr r hrr⟩
          apply goodStack_attach f rest (Node.mk e []) hg
          · simpa [Node.entry] using hf
          · simp [goodNode, goodKids]

theorem runEntries_good (es : List DEntry) :
    ∀ s s2 : TState, runEntries s es = some s2 →
      goodStack s.stack = true →
      (∀ r, s.rootDone = some r → goodNode r = true) →
      goodStack s2.stack = true
        ∧ ∀ r, s2.rootDone = some r → goodNode r = true := by
  induction es with
  | nil =>
      intro s s2 h hg hr
      simp only [runEntries] at h
      injection h with h2
      subst h2
      exact ⟨hg, hr⟩
  | cons e es ih =>
      intro s s2 h hg hr
      simp only [runEntries] at h
      cases hstep : stepEntry s e with
      | none => rw [hstep] at h; exact absurd h (by simp)
      | some s1 =>
          rw [hstep] at h
          obtain ⟨hg1, hr1⟩ := stepEntry_good s s1 e hstep hg hr
          exact ih s1 s2 h hg1 hr1

theorem collapseInto_good (fs : List (DEntry × List Node)) :
    ∀ n : Node, goodNode n = true → goodStack fs = true →
      (fs ≠ [] → isTerm n.entry = false) →
      goodNode (collapseInto n fs) = true := by
  induction fs with
  | nil =>
      intro n hn _ _
      simpa [collapseInto] using hn
  | cons g rest ih =>
      intro n hn hg hterm
      have hnt : isTerm n.entry = false := hterm (by simp)
      simp only [collapseInto]
      apply ih
      · cases rest with
        | nil =>
            simp only [goodStack] at hg
            simp [goodNode, goodKids_append, goodKids, hg, hnt, hn]
        | cons h2 t =>
            simp only [goodStack, Bool.and_eq_true] at hg
            simp [goodNode, goodKids_append, goodKids, hg.1.2, hnt, hn]
      · cases rest with
        | nil => rfl
        | cons h2 t =>
            simp only [goodStack, Bool.and_eq_true] at hg
            exact hg.2
      · intro hne
        cases rest with
        | nil => exact absurd rfl hne
        | cons h2 t =>
            simp only [goodStack, Bool.and_eq_true] at hg
            simpa [Node.entry] using hg.1.1

theorem collapseStack_good (fs : List (DEntry × List Node)) (r : Node)
    (hg : goodStack fs = true) (h : collapseStack fs = some r) :
    goodNode r = true := by
  cases fs with
  | nil => simp [collapseStack] at h
  | cons f rest =>
      simp only [collapseStack] at h
      injection h with h2
      subst h2
      apply collapseInto_good rest (closeFrame f)
      · cases rest with
        | nil =>
            simp only [goodStack] at hg
            simpa [closeFrame, goodNode] using hg
        | cons h2 t =>
            simp only [goodStack, Bool.and_eq_true] at hg
            simpa [closeFrame, goodNode] using hg.1.2
      · cases rest with
        | nil => rfl
        | cons h2 t =>
            simp only [goodStack, Bool.and_eq_true] at hg
            exact hg.2
      · intro hne
        cases rest with
        | nil => exact absurd rfl hne
        | cons h2 t =>
            simp only [goodStack, Bool.and_eq_true] at hg
            simpa [closeFrame, Node.entry] using hg.1.1

/-! #### Streams that are serializations of well-formed forests

`serForest` is the pre-order flattening the spec describes: a record, then —
when it owns children — its children followed by one terminator. `wfForest`
states that no node is a terminator and childless records own no subtree.
Reconstruction of such a stream is exact (up to the root duplication). -/

mutual
def serTree : Node → List DEntry
  | .mk e ks => e :: (if e.children then serForest ks ++ [termRec] else [])
def serForest : List Node → List DEntry
  | [] => []
  | n :: ns => serTree n ++ serForest ns
end

mutual
def wfTree : Node → Bool
  | .mk e ks => !isTerm e && (if e.children then wfForest ks else ks.isEmpty)
def wfForest : List Node → Bool
  | [] => true
  | n :: ns => wfTree n && wfForest ns
end

theorem runEntries_append (as bs : List DEntry) :
    ∀ s s1 : TState, runEntries s as = some s1 →
      runEntries s (as ++ bs) = runEntries s1 bs := by
  induction as with
  | nil =>
      intro s s1 h
      simp only [runEntries] at h
      injection h with h2
      subst h2
      simp
  | cons e as ih =>
      intro s s1 h
      simp only [runEntries] at h
      simp only [List.cons_append, runEntries]
      cases hstep : stepEntry s e with
      | none => rw [hstep] at h; exact absurd h (by simp)
      | some s2 =>
          rw [hstep] at h
          exact ih s2 s1 h

theorem serForest_run (k : Nat) :
    ∀ ns : List Node, sizeNodes ns ≤ k → wfForest ns = true →
      ∀ (s : TState) (f : DEntry × List Node)
        (rest : List (DEntry × List Node)),
        s.stack = f :: rest → s.rootDone = none →
        ∃ m2, runEntries s (serForest ns)
          = some { stack := (f.1, f.2 ++ ns) :: rest, omap := m2,
                   rootDone := none } := by
  induction k with
  | zero =>
      intro ns hsz hwf s f rest hst hrd
      cases ns with
      | nil =>
          refine ⟨s.omap, ?_⟩
          obtain ⟨st, om, rd⟩ := s
          dsimp only at hst hrd
          subst hst
          subst hrd
          simp [serForest, runEntries]
      | cons n ns2 =>
          exfalso
          have := Node_size_pos n
          simp only [sizeNodes] at hsz
          omega
  | succ k ih =>
      intro ns hsz hwf s f rest hst hrd
      cases ns with
      | nil =>
          refine ⟨s.omap, ?_⟩
          obtain ⟨st, om, rd⟩ := s
          dsimp only at hst hrd
          subst hst
          subst hrd
          simp [serForest, runEntries]
      | cons n ns2 =>
          obtain ⟨e, ks⟩ := n
          obtain ⟨fe, fk⟩ := f
          simp only [wfForest, wfTree, Bool.and_eq_true] at hwf
          obtain ⟨⟨hnt, hkids⟩, hwf2⟩ := hwf
          have hnt2 : isTerm e = false := by simpa using hnt
          have hszn : 1 + sizeNodes ks + sizeNodes ns2 ≤ k + 1 := by
            simpa [sizeNodes, Node.size, Nat.add_assoc] using hsz
          by_cases hc : e.children = true
          · rw [if_pos hc] at hkids
            have hstream : serForest (Node.mk e ks :: ns2)
                = e :: (serForest ks ++ ([termRec] ++ serForest ns2)) := by
              simp [serForest, serTree, hc]
            have hstep1 : stepEntry s e = some
                { stack := (e, []) :: (fe, fk) :: rest,
                  omap := (e.offset, e) :: s.omap, rootDone := none } := by
              rw [stepEntry_push s e (fe, fk) rest hnt2 hc hst, hrd]
            obtain ⟨m2, hrun2⟩ := ih ks (by omega) hkids
              { stack := (e, []) :: (fe, fk) :: rest,
                omap := (e.offset, e) :: s.omap, rootDone := none }
              (e, []) ((fe, fk) :: rest) rfl rfl
            dsimp only [List.nil_append] at hrun2
            have hstep3 : stepEntry
                { stack := (e, ks) :: (fe, fk) :: rest, omap := m2,
                  rootDone := none } termRec
                = some { stack := (fe, fk ++ [Node.mk e ks]) :: rest,
                         omap := (termRec.offset, termRec) :: m2,
                         rootDone := none } := by
              rw [stepEntry_pop2 _ termRec (e, ks) (fe, fk) rest rfl rfl]
              rfl
            obtain ⟨m4, hrun4⟩ := ih ns2 (by omega) hwf2
              { stack := (fe, fk ++ [Node.mk e ks]) :: rest,
                omap := (termRec.offset, termRec) :: m2, rootDone := none }
              (fe, fk ++ [Node.mk e ks]) rest rfl rfl
            refine ⟨m4, ?_⟩
            rw [hstream]
            simp only [runEntries]
            rw [hstep1]
            dsimp only
            rw [runEntries_append (serForest ks) ([termRec] ++ serForest ns2)
              _ _ hrun2]
            simp only [List.singleton_append, runEntries]
            rw [hstep3]
            simp only [List.append_eq, List.nil_append]
            rw [hrun4]
            simp [List.append_assoc]
          · have hc2 : e.children = false := by
              cases hcc : e.children
              · rfl
              · exact absurd hcc hc
            rw [if_neg hc] at hkids
            have hks : ks = [] := by simpa using hkids
            subst hks
            have hstream : serForest (Node.mk e [] :: ns2)
                = e :: serForest ns2 := by
              simp [serForest, serTree, hc2]
            have hstep1 : stepEntry s e = some
                { stack := (fe, fk ++ [Node.mk e []]) :: rest,
                  omap := (e.offset, e) :: s.omap, rootDone := none } := by
              rw [stepEntry_leaf s e (fe, fk) rest hnt2 hc2 hst, hrd]
            obtain ⟨m2, hrun2⟩ := ih ns2 (by omega) hwf2
              { stack := (fe, fk ++ [Node.mk e []]) :: rest,
                omap := (e.offset, e) :: s.omap, rootDone := none }
              (fe, fk ++ [Node.mk e []]) rest rfl rfl
            refine ⟨m2, ?_⟩
            rw [hstream]
            simp only [runEntries]
            rw [hstep1]
            dsimp only
            rw [hrun2]
            simp [List.append_assoc]

/-! #### Claims C2 and C8 -/

/-- C2 amended: for every stream on which `Tree` succeeds, (1) the number of
nodes in the resulting tree is the number of non-terminator records PLUS
ONE — the first record is duplicated, appearing both as the root and as the
root's first child — not equal to it; (2) the synthetic terminator is never
attached as a child node anywhere in the tree; (3) when the stream is the
pre-order serialization of a well-formed forest (sibling records in order,
children closed by one terminator each), the root's children are exactly
that forest, so any two sibling records of the input appear as sibling
nodes in the same relative order. -/
theorem Tree_structural (es : List DEntry) (t : Node) (m : List (Nat × DEntry))
    (h : dwarfutil.Tree es = some (t, m)) :
    Node.size t = nonTermCount es + 1
      ∧ goodNode t = true
      ∧ ∀ (forest : List Node) (e0b : DEntry) (restb : List DEntry),
          wfForest forest = true → serForest forest = e0b :: restb →
          es = e0b :: restb → t = Node.mk e0b forest := by
  cases es with
  | nil => simp [dwarfutil.Tree] at h
  | cons e0 rest2 =>
      simp only [dwarfutil.Tree] at h
      cases hrun : runEntries
          { stack := [(e0, [])], omap := [], rootDone := none }
          (e0 :: rest2) with
      | none => rw [hrun] at h; exact absurd h (by simp)
      | some s =>
          rw [hrun] at h
          dsimp only at h
          obtain ⟨hinv, hsz⟩ := runEntries_size_inv (e0 :: rest2) _ s
            (Or.inl rfl) hrun
          obtain ⟨hgood, hroot⟩ := runEntries_good (e0 :: rest2) _ s hrun
            (by simp [goodStack, goodKids]) (by intro r hr2; simp at hr2)
          have hsz0 : stateSize
              { stack := [(e0, [])], omap := [], rootDone := none } = 1 := by
            simp [stateSize, stackSize, frameSize, sizeNodes, rootSize]
          rw [hsz0] at hsz
          have hstruct : ∀ (forest : List Node) (e0b : DEntry)
              (restb : List DEntry),
              wfForest forest = true → serForest forest = e0b :: restb →
              e0 :: rest2 = e0b :: restb → t = Node.mk e0b forest := by
            intro forest e0b restb hwf hser hes
            injection hes with he hr2
            subst he
            subst hr2
            obtain ⟨m2, hrun2⟩ := serForest_run (sizeNodes forest) forest
              le_rfl hwf
              { stack := [(e0, [])], omap := [], rootDone := none }
              (e0, []) [] rfl rfl
            rw [hser, hrun] at hrun2
            injection hrun2 with h2
            subst h2
            dsimp only at h
            simp only [collapseStack, collapseInto, closeFrame,
              List.append_eq, List.nil_append] at h
            injection h with h3
            rw [Prod.mk.injEq] at h3
            exact h3.1.symm
          cases hrd : s.rootDone with
          | some r =>
              rw [hrd] at h
              dsimp only at h
              injection h with h2
              rw [Prod.mk.injEq] at h2
              obtain ⟨h3, h4⟩ := h2
              subst h3
              have hstack : s.stack = [] := by
                rcases hinv with h5 | h5
                · rw [hrd] at h5; exact absurd h5 (by simp)
                · exact h5
              refine ⟨?_, hroot r hrd, hstruct⟩
              have hsz4 : stateSize s = Node.size r := by
                simp [stateSize, hstack, stackSize, rootSize, hrd]
              omega
          | none =>
              rw [hrd] at h
              dsimp only at h
              cases hcol : collapseStack s.stack with
              | none => rw [hcol] at h; exact absurd h (by simp)
              | some r =>
                  rw [hcol] at h
                  dsimp only at h
                  injection h with h2
                  rw [Prod.mk.injEq] at h2
                  obtain ⟨h3, h4⟩ := h2
                  subst h3
                  refine ⟨?_, collapseStack_good s.stack r hgood hcol, hstruct⟩
                  cases hstk : s.stack with
                  | nil => rw [hstk] at hcol; simp [collapseStack] at hcol
                  | cons f rest3 =>
                      rw [hstk] at hcol
                      simp only [collapseStack] at hcol
                      injection hcol with h5
                      subst h5
                      have hsz2 : Node.size (collapseInto (closeFrame f) rest3)
                          = frameSize f + stackSize rest3 := by
                        rw [collapseInto_size]
                        simp [closeFrame, Node.size, frameSize]
                      have hsz3 : stateSize s
                          = frameSize f + stackSize rest3 := by
                        simp [stateSize, hstk, stackSize, rootSize, hrd]
                      omega

/-- Shared demo records for the `Tree` claims. -/
def cuE : DEntry := ⟨0x11, 11, true, []⟩
def subE : DEntry := ⟨tagSubprogram, 29, false, []⟩
def demoStream : List DEntry := [cuE, subE, termRec]
def demoForest : List Node := [Node.mk cuE [Node.mk subE []]]
def demoTree : Node := Node.mk cuE demoForest
def demoOmap : List (Nat × DEntry) := [(0, termRec), (29, subE), (11, cuE)]

theorem Tree_structural_witness :
    Node.size demoTree = nonTermCount demoStream + 1
      ∧ goodNode demoTree = true
      ∧ demoTree = Node.mk cuE demoForest := by
  have h := Tree_structural demoStream demoTree demoOmap (by rfl)
  exact ⟨h.1, h.2.1,
    h.2.2 demoForest cuE [subE, termRec] (by rfl) (by rfl) (by rfl)⟩

/-- C2 counterexample: the single-record stream `[subE]` (one non-terminator
record) yields a tree with TWO nodes — the record appears both as the root
and as the root's only child — so the number of non-terminator records does
not equal the number of nodes created. -/
theorem Tree_count_cex :
    dwarfutil.Tree [subE]
        = some (Node.mk subE [Node.mk subE []], [(29, subE)])
      ∧ Node.size (Node.mk subE [Node.mk subE []]) = 2
      ∧ nonTermCount [subE] = 1 :=
  ⟨by rfl, by rfl, by rfl⟩

/-- C8 amended: a terminator with no matching open record makes `Tree` pop
an empty stack, a runtime slice-bounds panic (modelled `none`); but end of
stream with a non-empty parent stack is NOT detected: `Tree` silently
returns the tree built so far (indeed the stack is non-empty at the end of
every well-formed stream, since the root is never popped). -/
theorem Tree_malformed :
    (∀ (e0 : DEntry) (es : List DEntry), isTerm e0 = false →
        e0.children = false →
        dwarfutil.Tree (e0 :: termRec :: termRec :: es) = none)
    ∧ (∀ e0 a : DEntry, isTerm e0 = false → e0.children = true →
        isTerm a = false →
        (dwarfutil.Tree [e0, a]).isSome = true) := by
  constructor
  · intro e0 es h1 h2
    have hstep1 : stepEntry
        { stack := [(e0, [])], omap := [], rootDone := none } e0
        = some { stack := [(e0, [Node.mk e0 []])], omap := [(e0.offset, e0)],
                 rootDone := none } := by
      rw [stepEntry_leaf _ e0 (e0, []) [] h1 h2 rfl]
      rfl
    have hstep2 : stepEntry
        { stack := [(e0, [Node.mk e0 []])], omap := [(e0.offset, e0)],
          rootDone := none } termRec
        = some { stack := [],
                 omap := [(termRec.offset, termRec), (e0.offset, e0)],
                 rootDone := some (Node.mk e0 [Node.mk e0 []]) } := by
      rw [stepEntry_pop1 _ termRec (e0, [Node.mk e0 []]) rfl rfl]
      rfl
    have hstep3 : stepEntry
        { stack := [],
          omap := [(termRec.offset, termRec), (e0.offset, e0)],
          rootDone := some (Node.mk e0 [Node.mk e0 []]) } termRec = none :=
      stepEntry_empty _ termRec rfl
    have hrunAll : runEntries
        { stack := [(e0, [])], omap := [], rootDone := none }
        (e0 :: termRec :: termRec :: es) = none := by
      simp only [runEntries]
      rw [hstep1]
      dsimp only
      rw [hstep2]
      dsimp only
      rw [hstep3]
    simp [dwarfutil.Tree, hrunAll]
  · intro e0 a h1 h2 h3
    have hstep1 : stepEntry
        { stack := [(e0, [])], omap := [], rootDone := none } e0
        = some { stack := [(e0, []), (e0, [])], omap := [(e0.offset, e0)],
                 rootDone := none } := by
      rw [stepEntry_push _ e0 (e0, []) [] h1 h2 rfl]
    by_cases hac : a.children = true
    · have hstep2 : stepEntry
          { stack := [(e0, []), (e0, [])], omap := [(e0.offset, e0)],
            rootDone := none } a
          = some { stack := [(a, []), (e0, []), (e0, [])],
                   omap := [(a.offset, a), (e0.offset, e0)],
                   rootDone := none } := by
        rw [stepEntry_push _ a (e0, []) [(e0, [])] h3 hac rfl]
      have hrunAll : runEntries
          { stack := [(e0, [])], omap := [], rootDone := none } [e0, a]
          = some { stack := [(a, []), (e0, []), (e0, [])],
                   omap := [(a.offset, a), (e0.offset, e0)],
                   rootDone := none } := by
        simp only [runEntries]
        rw [hstep1]
        dsimp only
        rw [hstep2]
      simp [dwarfutil.Tree, hrunAll, collapseStack]
    · have hac2 : a.children = false := by
        cases hcc : a.children
        · rfl
        · exact absurd hcc hac
      have hstep2 : stepEntry
          { stack := [(e0, []), (e0, [])], omap := [(e0.offset, e0)],
            rootDone := none } a
          = some { stack := [(e0, [Node.mk a []]), (e0, [])],
                   omap := [(a.offset, a), (e0.offset, e0)],
                   rootDone := none } := by
        rw [stepEntry_leaf _ a (e0, []) [(e0, [])] h3 hac2 rfl]
        rfl
      have hrunAll : runEntries
          { stack := [(e0, [])], omap := [], rootDone := none } [e0, a]
          = some { stack := [(e0, [Node.mk a []]), (e0, [])],
                   omap := [(a.offset, a), (e0.offset, e0)],
                   rootDone := none } := by
        simp only [runEntries]
        rw [hstep1]
        dsimp only
        rw [hstep2]
      simp [dwarfutil.Tree, hrunAll, collapseStack]

theorem Tree_malformed_witness :
    dwarfutil.Tree (subE :: termRec :: termRec :: []) = none
      ∧ (dwarfutil.Tree [cuE, subE]).isSome = true :=
  ⟨Tree_malformed.1 subE [] (by rfl) (by rfl),
   Tree_malformed.2 cuE subE (by rfl) (by rfl) (by rfl)⟩

/-- C8 counterexample: the stream `[cuE, subE]` ends while the compilation
unit record is still open (the parent stack is non-empty at end of stream),
yet `Tree` succeeds, silently returning the truncated tree instead of
failing loudly. -/
theorem Tree_truncated_cex :
    dwarfutil.Tree [cuE, subE]
      = some (Node.mk cuE [Node.mk cuE [Node.mk subE []]],
          [(29, subE), (11, cuE)]) := by
  rfl
